import Mathlib

/-!
Verification of the core of the `fjall` storage engine fragment:
the segment writer (`src/segment/writer.rs`), the partition-name
validator (`src/partition/name.rs`) and the transactional partition
handle's read-modify-write operations (`src/tx/partition.rs`).

The segment writer is embedded as a pure state machine.  File and
index I/O are modelled by recording, inside the state, the list of
flushed blocks (in file order) and the list of registered sparse-index
entries.  The functions `Value::size` (from `value.rs`, outside the
provided sources) and the length of the LZ4-compressed serialized
block (`block.rs` / `lz4_flex`, outside the provided sources) enter as
parameters of the writer's options: every theorem below holds for
every choice of these functions.
-/

namespace Fjall

/-- One versioned record, `Value` from `value.rs`: a byte-string key,
a byte-string value, a 64-bit sequence number and a tombstone flag.
Bytes are modelled as natural numbers, the seqno as a natural number
(the u64 range enters through explicit bounds where it matters). -/
structure Value where
  key : List Nat
  value : List Nat
  seqno : Nat
  is_tombstone : Bool
deriving DecidableEq, Repr

/-- The largest u64, `SeqNo::MAX`, initial value of `lowest_seqno`. -/
def u64Max : Nat := 2 ^ 64 - 1

/-- Writer options (`Options` in `writer.rs`).  `path` is dropped
(pure model), `index_block_size` only feeds the index writer's own
blocking, which registers entries in order either way.  `sz` models
`Value::size()` and `compLen` models
`compress_prepend_size(serialize(chunk)).len()`; both are code outside
the provided sources, so they are kept as parameters: the claims hold
for every choice. -/
structure Options where
  evict_tombstones : Bool
  block_size : Nat
  sz : Value → Nat
  compLen : List Value → Nat

/-- One sparse-index registration,
`index_writer.register_block(first_key, file_pos, bytes_written)`. -/
structure IndexEntry where
  first_key : List Nat
  offset : Nat
  len : Nat
deriving DecidableEq, Repr

/-- The segment writer state (`Writer` in `writer.rs`).  `chunk` is
`chunk.items`; `blocks` records the flushed blocks in file order and
`indexEntries` the sparse-index registrations, standing in for the
block file and the index writer. -/
structure Writer where
  chunk : List Value
  blocks : List (List Value)
  indexEntries : List IndexEntry
  block_count : Nat
  written_item_count : Nat
  file_pos : Nat
  uncompressed_size : Nat
  first_key : Option (List Nat)
  last_key : Option (List Nat)
  tombstone_count : Nat
  chunk_size : Nat
  lowest_seqno : Nat
  highest_seqno : Nat
deriving DecidableEq, Repr

/-- `Writer::new`: all counters zero, keys unset,
`lowest_seqno = SeqNo::MAX`, `highest_seqno = 0`. -/
def Writer.new : Writer where
  chunk := []
  blocks := []
  indexEntries := []
  block_count := 0
  written_item_count := 0
  file_pos := 0
  uncompressed_size := 0
  first_key := none
  last_key := none
  tombstone_count := 0
  chunk_size := 0
  lowest_seqno := u64Max
  highest_seqno := 0

/-- Key of the chunk's first record,
`chunk.items.first().expect("Chunk should not be empty")`.  The `[]`
case is the panic branch of the `expect`; it is shown unreachable. -/
def headKey : List Value → List Nat
  | [] => []
  | v :: _ => v.key

/-- Byte length the block file advances by: `bytes.len() as u32`, the
explicit truncating cast in `write_block`. -/
def blockLen (o : Options) (b : List Value) : Nat :=
  o.compLen b % 2 ^ 32

/-- `Writer::write_block`: account the uncompressed chunk size,
serialize + compress the chunk (modelled by appending it to `blocks`
and by `blockLen`), register the block's first key at the pre-write
file position with the compressed length, advance the file position,
bump the item and block counters and clear the chunk. -/
def Writer.write_block (o : Options) (s : Writer) : Writer :=
  { s with
    uncompressed_size := s.uncompressed_size + (s.chunk.map o.sz).sum
    blocks := s.blocks ++ [s.chunk]
    indexEntries := s.indexEntries ++
      [⟨headKey s.chunk, s.file_pos, blockLen o s.chunk⟩]
    file_pos := s.file_pos + blockLen o s.chunk
    written_item_count := s.written_item_count + s.chunk.length
    block_count := s.block_count + 1
    chunk := [] }

/-- Step 1 of `Writer::write` past the eviction gate:
`self.tombstone_count += 1` for tombstones. -/
def Writer.noteTombstone (item : Value) (s : Writer) : Writer :=
  if item.is_tombstone then
    { s with tombstone_count := s.tombstone_count + 1 } else s

/-- Step 2 of `Writer::write`: `self.chunk_size += item.size()` and
`self.chunk.items.push(item)`. -/
def Writer.pushItem (o : Options) (item : Value) (s : Writer) : Writer :=
  { s with
    chunk_size := s.chunk_size + o.sz item
    chunk := s.chunk ++ [item] }

/-- Step 3 of `Writer::write`: flush and reset the accumulator when
`self.chunk_size >= self.opts.block_size`. -/
def Writer.maybeFlush (o : Options) (s : Writer) : Writer :=
  if o.block_size ≤ s.chunk_size then
    { s.write_block o with chunk_size := 0 } else s

/-- Step 4 of `Writer::write`: set `first_key` if unset, always set
`last_key`. -/
def Writer.noteKeys (item : Value) (s : Writer) : Writer :=
  { s with
    first_key := if s.first_key.isNone then some item.key else s.first_key
    last_key := some item.key }

/-- Step 5 of `Writer::write`: lower `lowest_seqno` and raise
`highest_seqno`. -/
def Writer.noteSeqnos (item : Value) (s : Writer) : Writer :=
  let s := if item.seqno < s.lowest_seqno then
    { s with lowest_seqno := item.seqno } else s
  if s.highest_seqno < item.seqno then
    { s with highest_seqno := item.seqno } else s

/-- `Writer::write`: drop tombstones under `evict_tombstones`,
otherwise count tombstones, append to the chunk, flush when the
accumulated size reaches `block_size`, then update the key and seqno
metadata — the steps in the source's order. -/
def Writer.write (o : Options) (s : Writer) (item : Value) : Writer :=
  if item.is_tombstone && o.evict_tombstones then s
  else
    Writer.noteSeqnos item
      (Writer.noteKeys item
        (Writer.maybeFlush o
          (Writer.pushItem o item
            (Writer.noteTombstone item s))))

/-- `Writer::finalize`: flush the last chunk if non-empty (index
finalization, buffer flush and fsync are I/O with no effect on the
modelled state). -/
def Writer.finalize (o : Options) (s : Writer) : Writer :=
  if s.chunk.isEmpty then s else s.write_block o

/-- State after writing a whole input sequence through the writer. -/
def Writer.run (o : Options) (V : List Value) : Writer :=
  V.foldl (Writer.write o) Writer.new

/-- State after writing a whole input sequence and finalizing. -/
def Writer.runFinal (o : Options) (V : List Value) : Writer :=
  Writer.finalize o (Writer.run o V)

/-- The subsequence of the input the writer retains: everything except
tombstones when `evict_tombstones` is set. -/
def retained (o : Options) (V : List Value) : List Value :=
  V.filter fun v => !(v.is_tombstone && o.evict_tombstones)

/-- Byte-lexicographic order on keys (the sort order of `Vec<u8>`). -/
def keyLe : List Nat → List Nat → Bool
  | [], _ => true
  | _ :: _, [] => false
  | a :: as, b :: bs => if a < b then true else if a = b then keyLe as bs else false

/-- Strict byte-lexicographic order on keys. -/
def keyLt : List Nat → List Nat → Bool
  | [], [] => false
  | [], _ :: _ => true
  | _ :: _, [] => false
  | a :: as, b :: bs => if a < b then true else if a = b then keyLt as bs else false

/-- The `(key ASC, seqno DESC)` order records are fed to the writer in. -/
def valueLe (a b : Value) : Bool :=
  if a.key = b.key then Nat.ble b.seqno a.seqno else keyLe a.key b.key

/-- `VALID_CHARACTERS` from `name.rs`. -/
def VALID_CHARACTERS : List Char :=
  "abcdefghijklmnopqrstuvwxyzABCDEFGHIJKLMNOPQRSTUVWXYZ0123456789_-.#".data

/-- Byte length of a UTF-8 string given as its character sequence,
Rust's `str::len`. -/
def utf8Len (s : List Char) : Nat :=
  (s.map Char.utf8Size).sum

/-- `is_valid_partition_name` from `name.rs`.  A `&str` is modelled by
its sequence of unicode scalar values; `s.is_empty()` is `s = []`,
`u8::try_from(s.len()).is_err()` is `255 < utf8Len s`, and the final
check runs `VALID_CHARACTERS.contains(c)` over `s.chars()`. -/
def is_valid_partition_name (s : List Char) : Bool :=
  if s.isEmpty then false
  else if 255 < utf8Len s then false
  else s.all fun c => VALID_CHARACTERS.contains c

/-- Abstract single-key operations of the inner `PartitionHandle`
(`self.inner`, an external collaborator: the underlying LSM).  The
read-modify-write claims hold for every implementation. -/
structure PartitionOps (σ : Type) where
  get : σ → List Nat → Option (List Nat)
  insert : σ → List Nat → List Nat → σ
  remove : σ → List Nat → σ

/-- `TransactionalPartitionHandle::fetch_update`: under the tx lock,
read `prev = get(k)`, compute `updated = f(prev)`; insert on
`Some`, remove on `None` when `prev` existed; return `prev`.  The
lock acquisition serializes the whole step; the model takes the step
as one atomic state transition. -/
def fetch_update {σ : Type} (P : PartitionOps σ) (st : σ) (key : List Nat)
    (f : Option (List Nat) → Option (List Nat)) : σ × Option (List Nat) :=
  let prev := P.get st key
  let updated := f prev
  match updated with
  | some value => (P.insert st key value, prev)
  | none => if prev.isSome then (P.remove st key, prev) else (st, prev)

/-- `TransactionalPartitionHandle::update_fetch`: same transition as
`fetch_update`, but the returned value is `updated`. -/
def update_fetch {σ : Type} (P : PartitionOps σ) (st : σ) (key : List Nat)
    (f : Option (List Nat) → Option (List Nat)) : σ × Option (List Nat) :=
  let prev := P.get st key
  let updated := f prev
  match updated with
  | some value => (P.insert st key value, updated)
  | none => if prev.isSome then (P.remove st key, updated) else (st, updated)

/-- A concrete association-list instantiation of `PartitionOps`, used
by the witnesses. -/
def listOps : PartitionOps (List (List Nat × List Nat)) where
  get st k := (st.find? fun p => p.1 == k).map Prod.snd
  insert st k v := (k, v) :: st.filter fun p => p.1 != k
  remove st k := st.filter fun p => p.1 != k

/-- Recomputation of the sparse-index entries from the flushed blocks:
each block is registered under its first record's key, at the running
offset, with its (truncated, as in `bytes.len() as u32`) compressed
length; the offset advances by that length. -/
def entriesFrom (o : Options) (off : Nat) : List (List Value) → List IndexEntry
  | [] => []
  | b :: bs => ⟨headKey b, off, blockLen o b⟩ :: entriesFrom o (off + blockLen o b) bs

/-- Like `entriesFrom` but with the untruncated compressed byte
length, as the spec describes it; the two agree whenever every block
compresses to fewer than 2^32 bytes. -/
def entriesSpec (o : Options) (off : Nat) : List (List Value) → List IndexEntry
  | [] => []
  | b :: bs => ⟨headKey b, off, o.compLen b⟩ :: entriesSpec o (off + o.compLen b) bs

/-- The chunks passed to `write_block` during one `write` call: the
flush branch hands over the chunk with the incoming item appended. -/
def writeCalls (o : Options) (s : Writer) (item : Value) : List (List Value) :=
  if item.is_tombstone && o.evict_tombstones then []
  else if o.block_size ≤ s.chunk_size + o.sz item then [s.chunk ++ [item]]
  else []

/-- The chunks passed to `write_block` during `finalize`. -/
def finalizeCalls (s : Writer) : List (List Value) :=
  if s.chunk.isEmpty then [] else [s.chunk]

/-- All chunks handed to `write_block` over a full execution: any
sequence of `write` calls followed by one `finalize`. -/
def allCalls (o : Options) (V : List Value) : List (List Value) :=
  (V.foldl
    (fun p item => (Writer.write o p.1 item, p.2 ++ writeCalls o p.1 item))
    (Writer.new, ([] : List (List Value)))).2
  ++ finalizeCalls (Writer.run o V)

/-- The writer invariant, tied to the input sequence processed so far:
the flushed blocks followed by the open chunk are exactly the retained
records, every flushed block is non-empty, the counters count what was
flushed, the index entries are the recomputation `entriesFrom`, the
file position sits after the last flushed byte, and the key/seqno
metadata summarize the retained records. -/
structure Inv (o : Options) (V : List Value) (s : Writer) : Prop where
  hjoin : s.blocks.flatten ++ s.chunk = retained o V
  hne : ∀ b ∈ s.blocks, b ≠ []
  hwic : s.written_item_count = s.blocks.flatten.length
  hbc : s.block_count = s.blocks.length
  hidx : s.indexEntries = entriesFrom o 0 s.blocks
  hfp : s.file_pos = (s.blocks.map (blockLen o)).sum
  hfk : s.first_key = (retained o V).head?.map Value.key
  hlk : s.last_key = (retained o V).getLast?.map Value.key
  hlo : s.lowest_seqno = (retained o V).foldl (fun a v => min a v.seqno) u64Max
  hhi : s.highest_seqno = (retained o V).foldl (fun a v => max a v.seqno) 0
  htc : s.tombstone_count = (retained o V).countP Value.is_tombstone

/-- A simple record-size model used by the witnesses: length-prefixed
key and value, seqno and flag (the theorems hold for every size
function). -/
def szModel (v : Value) : Nat :=
  v.key.length + v.value.length + 9

/-- Concrete options for the witnesses, with the compressed length
modelled as the serialized size reduced modulo 2^32 (so it is always a
legal u32). -/
def optsW (evict : Bool) (bs : Nat) : Options where
  evict_tombstones := evict
  block_size := bs
  sz := szModel
  compLen b := ((b.map szModel).sum + 8) % 2 ^ 32

/-- Sample records for the witnesses. -/
def vA : Value := ⟨[0], [10], 5, false⟩

/-- A sample tombstone for the witnesses. -/
def vT : Value := ⟨[1], [], 7, true⟩

/-- Two versions of one key, sorted by `(key ASC, seqno DESC)`, with
unique `(key, seqno)` pairs; with a tiny block size they land in two
different blocks that share their first key. -/
def vK1 : Value := ⟨[0], [], 5, false⟩

/-- The older version of the key of `vK1`. -/
def vK2 : Value := ⟨[0], [], 4, false⟩

/-- The spec's partition-name character set, spelled as the claim
lists it: the ranges `a-z`, `A-Z`, `0-9` and the four punctuation
characters `_`, `-`, `.`, `#`. -/
def specCharSet : List Char :=
  ((List.range 26).map fun i => Char.ofNat ('a'.toNat + i)) ++
    ((List.range 26).map fun i => Char.ofNat ('A'.toNat + i)) ++
    ((List.range 10).map fun i => Char.ofNat ('0'.toNat + i)) ++
    ['_', '-', '.', '#']

lemma write_drop (o : Options) (s : Writer) (item : Value)
    (ht : item.is_tombstone = true) (he : o.evict_tombstones = true) :
    Writer.write o s item = s := by
  simp [Writer.write, ht, he]

lemma noteTombstone_eq (item : Value) (s : Writer) :
    Writer.noteTombstone item s =
      { s with tombstone_count :=
          s.tombstone_count + if item.is_tombstone then 1 else 0 } := by
  by_cases h : item.is_tombstone = true <;>
    simp [Writer.noteTombstone, h]

lemma noteSeqnos_eq (item : Value) (s : Writer) :
    Writer.noteSeqnos item s =
      { s with
        lowest_seqno := min s.lowest_seqno item.seqno
        highest_seqno := max s.highest_seqno item.seqno } := by
  obtain ⟨c, bs, ie, bc, wic, fp, us, fk, lk, tc, cs, lo, hi⟩ := s
  by_cases h1 : item.seqno < lo <;>
    by_cases h2 : hi < item.seqno <;>
      simp [Writer.noteSeqnos, h1, h2, Writer.mk.injEq] <;> omega

lemma write_keep_flush (o : Options) (s : Writer) (item : Value)
    (h : (item.is_tombstone && o.evict_tombstones) = false)
    (hf : o.block_size ≤ s.chunk_size + o.sz item) :
    Writer.write o s item =
      { chunk := []
        blocks := s.blocks ++ [s.chunk ++ [item]]
        indexEntries := s.indexEntries ++ [⟨headKey (s.chunk ++ [item]),
          s.file_pos, blockLen o (s.chunk ++ [item])⟩]
        block_count := s.block_count + 1
        written_item_count := s.written_item_count + (s.chunk ++ [item]).length
        file_pos := s.file_pos + blockLen o (s.chunk ++ [item])
        uncompressed_size :=
          s.uncompressed_size + ((s.chunk ++ [item]).map o.sz).sum
        first_key := if s.first_key.isNone then some item.key else s.first_key
        last_key := some item.key
        tombstone_count :=
          s.tombstone_count + if item.is_tombstone then 1 else 0
        chunk_size := 0
        lowest_seqno := min s.lowest_seqno item.seqno
        highest_seqno := max s.highest_seqno item.seqno } := by
  rw [Writer.write, if_neg (by simp [h])]
  rw [noteTombstone_eq]
  rw [show Writer.pushItem o item
      { s with tombstone_count :=
          s.tombstone_count + if item.is_tombstone then 1 else 0 } =
    { s with
      tombstone_count := s.tombstone_count + if item.is_tombstone then 1 else 0
      chunk_size := s.chunk_size + o.sz item
      chunk := s.chunk ++ [item] } from rfl]
  rw [Writer.maybeFlush, if_pos (by simpa using hf)]
  rw [Writer.write_block]
  rw [Writer.noteKeys, noteSeqnos_eq]

lemma write_keep_noflush (o : Options) (s : Writer) (item : Value)
    (h : (item.is_tombstone && o.evict_tombstones) = false)
    (hf : ¬ o.block_size ≤ s.chunk_size + o.sz item) :
    Writer.write o s item =
      { s with
        chunk := s.chunk ++ [item]
        first_key := if s.first_key.isNone then some item.key else s.first_key
        last_key := some item.key
        tombstone_count :=
          s.tombstone_count + if item.is_tombstone then 1 else 0
        chunk_size := s.chunk_size + o.sz item
        lowest_seqno := min s.lowest_seqno item.seqno
        highest_seqno := max s.highest_seqno item.seqno } := by
  rw [Writer.write, if_neg (by simp [h])]
  rw [noteTombstone_eq]
  rw [show Writer.pushItem o item
      { s with tombstone_count :=
          s.tombstone_count + if item.is_tombstone then 1 else 0 } =
    { s with
      tombstone_count := s.tombstone_count + if item.is_tombstone then 1 else 0
      chunk_size := s.chunk_size + o.sz item
      chunk := s.chunk ++ [item] } from rfl]
  rw [Writer.maybeFlush, if_neg (by simpa using hf)]
  rw [Writer.noteKeys, noteSeqnos_eq]

lemma retained_concat (o : Options) (P : List Value) (v : Value) :
    retained o (P ++ [v]) =
      retained o P ++
        if v.is_tombstone && o.evict_tombstones then [] else [v] := by
  cases hv : v.is_tombstone <;> cases he : o.evict_tombstones <;>
    simp [retained, List.filter_append, hv, he]

lemma entriesFrom_concat (o : Options) (off : Nat) (bs : List (List Value))
    (b : List Value) :
    entriesFrom o off (bs ++ [b]) =
      entriesFrom o off bs ++
        [⟨headKey b, off + (bs.map (blockLen o)).sum, blockLen o b⟩] := by
  induction bs generalizing off with
  | nil => simp [entriesFrom]
  | cons hd tl ih => simp [entriesFrom, ih, Nat.add_assoc]

lemma inv_step (o : Options) (P : List Value) (v : Value) (s : Writer)
    (h : Inv o P s) : Inv o (P ++ [v]) (Writer.write o s v) := by
  obtain ⟨h1, h2, h3, h4, h5, h6, h7, h8, h9, h10, h11⟩ := h
  by_cases hd : (v.is_tombstone && o.evict_tombstones) = true
  · have hw : Writer.write o s v = s := by simp [Writer.write, hd]
    have hr : retained o (P ++ [v]) = retained o P := by
      simp [retained_concat, hd]
    rw [hw]
    exact ⟨by rw [hr]; exact h1, h2, h3, h4, h5, h6, by rw [hr]; exact h7,
      by rw [hr]; exact h8, by rw [hr]; exact h9, by rw [hr]; exact h10,
      by rw [hr]; exact h11⟩
  · have hd' : (v.is_tombstone && o.evict_tombstones) = false := by
      simpa using hd
    have hr : retained o (P ++ [v]) = retained o P ++ [v] := by
      simp [retained_concat, hd']
    have hfk : (if s.first_key.isNone then some v.key else s.first_key) =
        ((retained o P ++ [v]).head?).map Value.key := by
      cases hrp : retained o P with
      | nil => simp [h7, hrp]
      | cons x xs => simp [h7, hrp]
    have hlo : min s.lowest_seqno v.seqno =
        (retained o P ++ [v]).foldl (fun a w => min a w.seqno) u64Max := by
      rw [List.foldl_concat, ← h9]
    have hhi : max s.highest_seqno v.seqno =
        (retained o P ++ [v]).foldl (fun a w => max a w.seqno) 0 := by
      rw [List.foldl_concat, ← h10]
    have htc : (s.tombstone_count + if v.is_tombstone then 1 else 0) =
        (retained o P ++ [v]).countP Value.is_tombstone := by
      by_cases ht : v.is_tombstone = true <;>
        simp [List.countP_append, List.countP_cons, h11, ht]
    by_cases hf : o.block_size ≤ s.chunk_size + o.sz v
    · rw [write_keep_flush o s v hd' hf]
      refine ⟨?_, ?_, ?_, ?_, ?_, ?_, ?_, ?_, ?_, ?_, ?_⟩
      · rw [hr]
        simp only [List.flatten_append, List.flatten_cons, List.flatten_nil,
          List.append_nil, ← List.append_assoc, h1]
      · intro b hb
        rcases List.mem_append.mp hb with hb | hb
        · exact h2 b hb
        · simp only [List.mem_singleton] at hb
          subst hb
          simp
      · simp [h3, List.flatten_append]
      · simp [h4]
      · simp [h5, entriesFrom_concat, h6]
      · simp [h6]
      · rw [hr]; exact hfk
      · rw [hr]; simp [List.getLast?_concat]
      · rw [hr]; exact hlo
      · rw [hr]; exact hhi
      · rw [hr]; exact htc
    · rw [write_keep_noflush o s v hd' hf]
      refine ⟨?_, h2, h3, h4, h5, h6, ?_, ?_, ?_, ?_, ?_⟩
      · rw [hr]
        simp only [← List.append_assoc, h1]
      · rw [hr]; exact hfk
      · rw [hr]; simp [List.getLast?_concat]
      · rw [hr]; exact hlo
      · rw [hr]; exact hhi
      · rw [hr]; exact htc

lemma inv_new (o : Options) : Inv o [] Writer.new := by
  refine ⟨?_, ?_, ?_, ?_, ?_, ?_, ?_, ?_, ?_, ?_, ?_⟩ <;>
    simp [Writer.new, retained, entriesFrom]

lemma run_concat (o : Options) (V : List Value) (v : Value) :
    Writer.run o (V ++ [v]) = Writer.write o (Writer.run o V) v := by
  simp [Writer.run, List.foldl_concat]

lemma inv_run (o : Options) (V : List Value) : Inv o V (Writer.run o V) := by
  induction V using List.reverseRecOn with
  | nil => exact inv_new o
  | append_singleton P v ih =>
      rw [run_concat]
      exact inv_step o P v _ ih

lemma inv_final (o : Options) (V : List Value) (s : Writer) (h : Inv o V s) :
    Inv o V (Writer.finalize o s) ∧ (Writer.finalize o s).chunk = [] := by
  obtain ⟨h1, h2, h3, h4, h5, h6, h7, h8, h9, h10, h11⟩ := h
  by_cases hc : s.chunk.isEmpty
  · have hnil : s.chunk = [] := by simpa using hc
    rw [Writer.finalize, if_pos hc]
    exact ⟨⟨h1, h2, h3, h4, h5, h6, h7, h8, h9, h10, h11⟩, hnil⟩
  · have hnn : s.chunk ≠ [] := by simpa using hc
    rw [Writer.finalize, if_neg hc, Writer.write_block]
    refine ⟨⟨?_, ?_, ?_, ?_, ?_, ?_, h7, h8, h9, h10, h11⟩, rfl⟩
    · simpa [List.flatten_append, ← List.append_assoc] using h1
    · intro b hb
      rcases List.mem_append.mp hb with hb | hb
      · exact h2 b hb
      · simp only [List.mem_singleton] at hb
        subst hb
        exact hnn
    · simp [h3, List.flatten_append]
    · simp [h4]
    · simp [h5, entriesFrom_concat, h6]
    · simp [h6]

lemma retained_no_evict (o : Options) (V : List Value)
    (he : o.evict_tombstones = false) : retained o V = V := by
  simp [retained, he]

lemma foldl_min_le : ∀ (V : List Value) (a : Nat),
    V.foldl (fun x v => min x v.seqno) a ≤ a ∧
      ∀ v ∈ V, V.foldl (fun x v => min x v.seqno) a ≤ v.seqno
  | [], a => ⟨le_refl a, by simp⟩
  | v :: V, a => by
      rw [List.foldl_cons]
      obtain ⟨hle, hall⟩ := foldl_min_le V (min a v.seqno)
      refine ⟨le_trans hle (by omega), ?_⟩
      intro w hw
      rcases List.mem_cons.mp hw with rfl | hw
      · exact le_trans hle (by omega)
      · exact hall w hw

lemma foldl_min_mem : ∀ (V : List Value) (a : Nat),
    V.foldl (fun x v => min x v.seqno) a = a ∨
      ∃ v ∈ V, V.foldl (fun x v => min x v.seqno) a = v.seqno
  | [], a => Or.inl rfl
  | v :: V, a => by
      rw [List.foldl_cons]
      rcases foldl_min_mem V (min a v.seqno) with h | ⟨w, hw, h⟩
      · rcases Nat.le_total a v.seqno with hle | hle
        · exact Or.inl (by omega)
        · exact Or.inr ⟨v, by simp, by omega⟩
      · exact Or.inr ⟨w, by simp [hw], h⟩

lemma foldl_max_ge : ∀ (V : List Value) (a : Nat),
    a ≤ V.foldl (fun x v => max x v.seqno) a ∧
      ∀ v ∈ V, v.seqno ≤ V.foldl (fun x v => max x v.seqno) a
  | [], a => ⟨le_refl a, by simp⟩
  | v :: V, a => by
      rw [List.foldl_cons]
      obtain ⟨hle, hall⟩ := foldl_max_ge V (max a v.seqno)
      refine ⟨le_trans (by omega) hle, ?_⟩
      intro w hw
      rcases List.mem_cons.mp hw with rfl | hw
      · exact le_trans (by omega) hle
      · exact hall w hw

lemma foldl_max_mem : ∀ (V : List Value) (a : Nat),
    V.foldl (fun x v => max x v.seqno) a = a ∨
      ∃ v ∈ V, V.foldl (fun x v => max x v.seqno) a = v.seqno
  | [], a => Or.inl rfl
  | v :: V, a => by
      rw [List.foldl_cons]
      rcases foldl_max_mem V (max a v.seqno) with h | ⟨w, hw, h⟩
      · rcases Nat.le_total a v.seqno with hle | hle
        · exact Or.inr ⟨v, by simp, by omega⟩
        · exact Or.inl (by omega)
      · exact Or.inr ⟨w, by simp [hw], h⟩

lemma run_all_dropped (o : Options) (he : o.evict_tombstones = true) :
    ∀ V : List Value, (∀ v ∈ V, v.is_tombstone = true) →
      Writer.run o V = Writer.new
  | [], _ => rfl
  | v :: V, hall => by
      rw [Writer.run, List.foldl_cons,
        write_drop o Writer.new v (hall v (by simp)) he]
      exact run_all_dropped o he V fun w hw => hall w (by simp [hw])

lemma entriesFrom_eq_spec (o : Options)
    (hcomp : ∀ b : List Value, o.compLen b < 2 ^ 32) :
    ∀ (off : Nat) (bs : List (List Value)),
      entriesFrom o off bs = entriesSpec o off bs
  | _, [] => rfl
  | off, b :: bs => by
      rw [entriesFrom, entriesSpec, blockLen, Nat.mod_eq_of_lt (hcomp b),
        entriesFrom_eq_spec o hcomp]

lemma blockLen_eq (o : Options)
    (hcomp : ∀ b : List Value, o.compLen b < 2 ^ 32) (b : List Value) :
    blockLen o b = o.compLen b :=
  Nat.mod_eq_of_lt (hcomp b)

lemma entriesSpec_map_key (o : Options) :
    ∀ (off : Nat) (bs : List (List Value)),
      (entriesSpec o off bs).map IndexEntry.first_key = bs.map headKey
  | _, [] => rfl
  | off, b :: bs => by
      rw [entriesSpec, List.map_cons, List.map_cons, entriesSpec_map_key]

lemma headKey_mem : ∀ (b : List Value), b ≠ [] → ∃ v ∈ b, headKey b = v.key
  | [], h => absurd rfl h
  | v :: _, _ => ⟨v, by simp, rfl⟩

lemma entriesFrom_map_key (o : Options) :
    ∀ (off : Nat) (bs : List (List Value)),
      (entriesFrom o off bs).map IndexEntry.first_key = bs.map headKey
  | _, [] => rfl
  | off, b :: bs => by
      rw [entriesFrom, List.map_cons, List.map_cons, entriesFrom_map_key]

lemma entries_keys_sorted (o : Options) (V : List Value) (s : Writer)
    (h : Inv o V s)
    (hkeys : V.Pairwise fun a b => keyLe a.key b.key = true) :
    (s.indexEntries.map IndexEntry.first_key).Pairwise
      fun a b => keyLe a b = true := by
  have hret : (retained o V).Pairwise fun a b => keyLe a.key b.key = true :=
    hkeys.sublist (List.filter_sublist V)
  have hflat : s.blocks.flatten.Pairwise
      fun a b => keyLe a.key b.key = true := by
    rw [← h.hjoin] at hret
    exact (List.pairwise_append.mp hret).1
  have hblocks := (List.pairwise_flatten.mp hflat).2
  rw [h.hidx, entriesFrom_map_key, List.pairwise_map]
  refine hblocks.imp_of_mem ?_
  intro b1 b2 hb1 hb2 hr
  obtain ⟨v1, hv1, e1⟩ := headKey_mem b1 (h.hne b1 hb1)
  obtain ⟨v2, hv2, e2⟩ := headKey_mem b2 (h.hne b2 hb2)
  rw [e1, e2]
  exact hr v1 hv1 v2 hv2

lemma spec_chars_eq : specCharSet = VALID_CHARACTERS := by decide

/-- C1: writing a sorted sequence `V` of unique `(key, seqno)` records
through the writer and finalizing emits, across the flushed blocks in
file order, exactly the records of `V` when `evict_tombstones` is
unset, and exactly the non-tombstone subsequence of `V` when it is
set. -/
theorem segment_roundtrip (o : Options) (V : List Value)
    (hsorted : V.Pairwise fun a b => valueLe a b = true)
    (huniq : V.Pairwise fun a b => a.key ≠ b.key ∨ a.seqno ≠ b.seqno) :
    (Writer.runFinal o V).blocks.flatten =
      if o.evict_tombstones then V.filter (fun v => !v.is_tombstone)
      else V := by
  obtain ⟨hinv, hchunk⟩ := inv_final o V _ (inv_run o V)
  have hj := hinv.hjoin
  rw [hchunk, List.append_nil] at hj
  unfold Writer.runFinal
  rw [hj]
  cases he : o.evict_tombstones <;> simp [retained, he]

/-- Witness for C1 at a concrete sorted two-record input. -/
theorem segment_roundtrip_witness :
    (Writer.runFinal (optsW false 4096) [vA, vT]).blocks.flatten =
      [vA, vT] := by
  have h := segment_roundtrip (optsW false 4096) [vA, vT]
    (by decide) (by decide)
  simpa [optsW] using h

/-- C2: `fetch_update` reads `prev = get(k)`, computes `f(prev)`,
inserts on `Some`, removes on `None` when the key existed, leaves the
state unchanged when neither, and always returns `prev`. -/
theorem fetch_update_spec {σ : Type} (P : PartitionOps σ) (st : σ)
    (k : List Nat) (f : Option (List Nat) → Option (List Nat)) :
    (fetch_update P st k f).2 = P.get st k ∧
    (∀ v, f (P.get st k) = some v →
      (fetch_update P st k f).1 = P.insert st k v) ∧
    (f (P.get st k) = none → P.get st k ≠ none →
      (fetch_update P st k f).1 = P.remove st k) ∧
    (f (P.get st k) = none → P.get st k = none →
      (fetch_update P st k f).1 = st) := by
  cases hp : P.get st k with
  | none => cases hf : f none <;> simp [fetch_update, hp, hf]
  | some w => cases hf : f (some w) <;> simp [fetch_update, hp, hf]

/-- Witness for C2 on the association-list instantiation. -/
theorem fetch_update_spec_witness :
    (fetch_update listOps [([0], [1])] [0] (fun _ => some [2])).1 =
      listOps.insert [([0], [1])] [0] [2] :=
  (fetch_update_spec listOps [([0], [1])] [0] (fun _ => some [2])).2.1
    [2] rfl

/-- C3: after a non-empty sorted sequence is written with
`evict_tombstones` unset and finalized, the metadata holds the first
and last key, the extremal seqnos, the tombstone count and the item
count of the input. -/
theorem writer_metadata (o : Options) (V : List Value)
    (hne : V ≠ [])
    (he : o.evict_tombstones = false)
    (hsorted : V.Pairwise fun a b => valueLe a b = true)
    (hseq : ∀ v ∈ V, v.seqno < 2 ^ 64) :
    (Writer.runFinal o V).first_key = some (V.head hne).key ∧
    (Writer.runFinal o V).last_key = some (V.getLast hne).key ∧
    ((∃ v ∈ V, (Writer.runFinal o V).lowest_seqno = v.seqno) ∧
      ∀ v ∈ V, (Writer.runFinal o V).lowest_seqno ≤ v.seqno) ∧
    ((∃ v ∈ V, (Writer.runFinal o V).highest_seqno = v.seqno) ∧
      ∀ v ∈ V, v.seqno ≤ (Writer.runFinal o V).highest_seqno) ∧
    (Writer.runFinal o V).tombstone_count = V.countP Value.is_tombstone ∧
    (Writer.runFinal o V).written_item_count = V.length := by
  obtain ⟨hinv, hchunk⟩ := inv_final o V _ (inv_run o V)
  obtain ⟨h1, h2, h3, h4, h5, h6, h7, h8, h9, h10, h11⟩ := hinv
  rw [retained_no_evict o V he] at h1 h7 h8 h9 h10 h11
  rw [hchunk, List.append_nil] at h1
  unfold Writer.runFinal
  refine ⟨?_, ?_, ⟨?_, ?_⟩, ⟨?_, ?_⟩, h11, ?_⟩
  · rw [h7, List.head?_eq_head hne]
    rfl
  · rw [h8, List.getLast?_eq_getLast V hne]
    rfl
  · rw [h9]
    rcases foldl_min_mem V u64Max with hm | hm
    · refine ⟨V.head hne, List.head_mem hne, ?_⟩
      have hle := (foldl_min_le V u64Max).2 (V.head hne) (List.head_mem hne)
      have hb := hseq (V.head hne) (List.head_mem hne)
      rw [hm] at hle ⊢
      unfold u64Max at hle ⊢
      omega
    · exact hm
  · exact fun v hv => (foldl_min_le V u64Max).2 v hv |>.trans_eq' h9
  · rw [h10]
    rcases foldl_max_mem V 0 with hm | hm
    · refine ⟨V.head hne, List.head_mem hne, ?_⟩
      have hge := (foldl_max_ge V 0).2 (V.head hne) (List.head_mem hne)
      omega
    · exact hm
  · intro v hv
    rw [h10]
    exact (foldl_max_ge V 0).2 v hv
  · rw [h3, h1]

/-- Witness for C3 at a concrete sorted two-record input. -/
theorem writer_metadata_witness :
    (Writer.runFinal (optsW false 4096) [vA, vT]).written_item_count = 2 := by
  have h := writer_metadata (optsW false 4096) [vA, vT]
    (by decide) rfl (by decide) (by decide)
  simpa using h.2.2.2.2.2

/-- C4: `is_valid_partition_name` returns true exactly for strings of
1 to 255 UTF-8 bytes whose characters all lie in
`{a-z, A-Z, 0-9, _, -, ., #}`; the empty string, over-long strings,
and strings with characters outside the set (including every
multi-byte character) are rejected. -/
theorem valid_partition_name_iff (s : List Char) :
    is_valid_partition_name s = true ↔
      1 ≤ utf8Len s ∧ utf8Len s ≤ 255 ∧ ∀ c ∈ s, c ∈ specCharSet := by
  rw [show (∀ c ∈ s, c ∈ specCharSet) ↔ ∀ c ∈ s, c ∈ VALID_CHARACTERS from by
    rw [spec_chars_eq]]
  cases s with
  | nil => simp [is_valid_partition_name, utf8Len]
  | cons c t =>
      have h1 : 1 ≤ utf8Len (c :: t) := by
        have := c.utf8Size_pos
        simp only [utf8Len, List.map_cons, List.sum_cons]
        omega
      by_cases hlen : 255 < utf8Len (c :: t)
      · constructor
        · intro h
          simp [is_valid_partition_name, hlen] at h
        · intro ⟨_, h2, _⟩
          omega
      · have h2 : utf8Len (c :: t) ≤ 255 := by omega
        simp [is_valid_partition_name, hlen, h1, h2, List.contains]

/-- Witness for C4 at a one-character legal name. -/
theorem valid_partition_name_iff_witness :
    is_valid_partition_name ['a'] = true :=
  (valid_partition_name_iff ['a']).mpr (by decide)

/-- C5: a retained `write` flushes the chunk as a block exactly when
the accumulated size, after adding the incoming record, reaches
`block_size`; the flushed block ends with that record, and afterwards
the chunk and the size accumulator are reset. -/
theorem write_flush_threshold (o : Options) (s : Writer) (v : Value)
    (hd : (v.is_tombstone && o.evict_tombstones) = false) :
    (o.block_size ≤ s.chunk_size + o.sz v →
      (Writer.write o s v).blocks = s.blocks ++ [s.chunk ++ [v]] ∧
      (Writer.write o s v).chunk = [] ∧
      (Writer.write o s v).chunk_size = 0) ∧
    (¬ o.block_size ≤ s.chunk_size + o.sz v →
      (Writer.write o s v).blocks = s.blocks ∧
      (Writer.write o s v).chunk = s.chunk ++ [v] ∧
      (Writer.write o s v).chunk_size = s.chunk_size + o.sz v) := by
  constructor
  · intro hf
    rw [write_keep_flush o s v hd hf]
    exact ⟨rfl, rfl, rfl⟩
  · intro hf
    rw [write_keep_noflush o s v hd hf]
    exact ⟨rfl, rfl, rfl⟩

/-- Witness for C5: a single record reaching a block size of 1 is
flushed at once. -/
theorem write_flush_threshold_witness :
    (Writer.write (optsW false 1) Writer.new vA).chunk = [] :=
  ((write_flush_threshold (optsW false 1) Writer.new vA rfl).1
    (by decide)).2.1

/-- C6: writing a tombstone while `evict_tombstones` is set succeeds
and leaves the whole writer state unchanged — chunk, blocks, index,
counters, keys, seqnos and file position. -/
theorem write_tombstone_evicted_frame (o : Options) (s : Writer) (v : Value)
    (ht : v.is_tombstone = true) (he : o.evict_tombstones = true) :
    Writer.write o s v = s :=
  write_drop o s v ht he

/-- Witness for C6 on a concrete tombstone. -/
theorem write_tombstone_evicted_frame_witness :
    Writer.write (optsW true 4096) Writer.new vT = Writer.new :=
  write_tombstone_evicted_frame (optsW true 4096) Writer.new vT rfl rfl

/-- C7: after every write sequence, and after finalize, each flushed
block is registered under its first record's key at the file offset
equal to the sum of the compressed lengths of the previously flushed
blocks, with its own compressed length; `file_pos` sits past the last
block, and for key-sorted input the registered first keys are in
non-decreasing key order. -/
theorem sparse_index_registration (o : Options) (V : List Value)
    (hcomp : ∀ b : List Value, o.compLen b < 2 ^ 32)
    (hkeys : V.Pairwise fun a b => keyLe a.key b.key = true) :
    ((Writer.run o V).indexEntries =
        entriesSpec o 0 (Writer.run o V).blocks ∧
      (Writer.run o V).file_pos =
        ((Writer.run o V).blocks.map o.compLen).sum ∧
      ((Writer.run o V).indexEntries.map IndexEntry.first_key).Pairwise
        fun a b => keyLe a b = true) ∧
    ((Writer.runFinal o V).indexEntries =
        entriesSpec o 0 (Writer.runFinal o V).blocks ∧
      (Writer.runFinal o V).file_pos =
        ((Writer.runFinal o V).blocks.map o.compLen).sum ∧
      ((Writer.runFinal o V).indexEntries.map IndexEntry.first_key).Pairwise
        fun a b => keyLe a b = true) := by
  have hmap : ∀ bs : List (List Value),
      bs.map (blockLen o) = bs.map o.compLen := fun bs =>
    List.map_congr_left fun b _ => blockLen_eq o hcomp b
  have main : ∀ s : Writer, Inv o V s →
      s.indexEntries = entriesSpec o 0 s.blocks ∧
      s.file_pos = (s.blocks.map o.compLen).sum ∧
      (s.indexEntries.map IndexEntry.first_key).Pairwise
        fun a b => keyLe a b = true := by
    intro s h
    refine ⟨?_, ?_, entries_keys_sorted o V s h hkeys⟩
    · rw [h.hidx, entriesFrom_eq_spec o hcomp]
    · rw [h.hfp, hmap]
  exact ⟨main _ (inv_run o V), main _ (inv_final o V _ (inv_run o V)).1⟩

/-- Counterexample for C7's strict reading of "increasing first-key
order": a sorted input with unique `(key, seqno)` pairs whose two
versions of one key land in two blocks, so both index entries carry
the same first key — the registered first keys are non-decreasing but
not strictly increasing. -/
theorem sparse_index_strict_counterexample :
    ([vK1, vK2] : List Value).Pairwise
      (fun a b => valueLe a b = true) ∧
    ([vK1, vK2] : List Value).Pairwise
      (fun a b => a.key ≠ b.key ∨ a.seqno ≠ b.seqno) ∧
    ¬ (((Writer.runFinal (optsW false 1) [vK1, vK2]).indexEntries.map
        IndexEntry.first_key).Pairwise fun a b => keyLt a b = true) := by
  exact ⟨by decide, by decide, by decide⟩

/-- Witness for C7 at a concrete sorted two-record input. -/
theorem sparse_index_registration_witness :
    ((Writer.runFinal (optsW false 4096) [vA, vT]).indexEntries.map
      IndexEntry.first_key).Pairwise fun a b => keyLe a b = true :=
  (sparse_index_registration (optsW false 4096) [vA, vT]
    (fun b => Nat.mod_lt _ (by decide)) (by decide)).2.2.2

/-- C8: if nothing is ever retained — no write at all, or only
tombstones dropped under `evict_tombstones` — finalize flushes no
block, the keys stay unset, the counters stay at zero and
`lowest_seqno` stays at its `SeqNo::MAX` sentinel. -/
theorem empty_segment (o : Options) (V : List Value)
    (h : V = [] ∨ (o.evict_tombstones = true ∧
      ∀ v ∈ V, v.is_tombstone = true)) :
    (Writer.runFinal o V).blocks = [] ∧
    (Writer.runFinal o V).block_count = 0 ∧
    (Writer.runFinal o V).first_key = none ∧
    (Writer.runFinal o V).last_key = none ∧
    (Writer.runFinal o V).written_item_count = 0 ∧
    (Writer.runFinal o V).lowest_seqno = u64Max := by
  have hrun : Writer.run o V = Writer.new := by
    rcases h with rfl | ⟨he, hall⟩
    · rfl
    · exact run_all_dropped o he V hall
  unfold Writer.runFinal
  rw [hrun]
  exact ⟨rfl, rfl, rfl, rfl, rfl, rfl⟩

/-- Witness for C8 on the empty input. -/
theorem empty_segment_witness :
    (Writer.runFinal (optsW true 4096) []).blocks = [] :=
  (empty_segment (optsW true 4096) [] (Or.inl rfl)).1

/-- C9: `update_fetch` performs exactly the state transition of
`fetch_update` and differs only in returning the new value instead of
the previous one. -/
theorem update_fetch_equiv {σ : Type} (P : PartitionOps σ) (st : σ)
    (k : List Nat) (f : Option (List Nat) → Option (List Nat)) :
    (update_fetch P st k f).1 = (fetch_update P st k f).1 ∧
    (update_fetch P st k f).2 = f ((fetch_update P st k f).2) := by
  cases hp : P.get st k with
  | none => cases hf : f none <;>
      simp [fetch_update, update_fetch, hp, hf]
  | some w => cases hf : f (some w) <;>
      simp [fetch_update, update_fetch, hp, hf]

lemma allCalls_aux (o : Options) :
    ∀ (V : List Value) (s : Writer) (acc : List (List Value)),
      (∀ c ∈ acc, c ≠ []) →
      ∀ c ∈ (V.foldl (fun p item =>
          (Writer.write o p.1 item, p.2 ++ writeCalls o p.1 item))
          (s, acc)).2, c ≠ []
  | [], _, _, hacc => by simpa using hacc
  | v :: V, s, acc, hacc => by
      rw [List.foldl_cons]
      refine allCalls_aux o V _ _ ?_
      intro c hc
      rcases List.mem_append.mp hc with hc | hc
      · exact hacc c hc
      · by_cases hd : (v.is_tombstone && o.evict_tombstones) = true
        · simp [writeCalls, hd] at hc
        · by_cases hf : o.block_size ≤ s.chunk_size + o.sz v
          · simp [writeCalls, hd, hf] at hc
            simp [hc]
          · simp [writeCalls, hd, hf] at hc

/-- C10: over any execution — writes followed by one finalize —
`write_block` is only ever invoked on a non-empty chunk, so its
entry assertion holds and the `expect` on the chunk's first record
cannot panic. -/
theorem write_block_nonempty (o : Options) (V : List Value) :
    ∀ c ∈ allCalls o V, c ≠ [] := by
  intro c hc
  unfold allCalls at hc
  rcases List.mem_append.mp hc with hc | hc
  · exact allCalls_aux o V Writer.new [] (by simp) c hc
  · by_cases he : (Writer.run o V).chunk.isEmpty
    · simp [finalizeCalls, he] at hc
    · simp [finalizeCalls, he] at hc
      rw [hc]
      simpa using he

/-- Witness for C10: the flush during the only write call hands the
singleton chunk to `write_block`. -/
theorem write_block_nonempty_witness : ([vA] : List Value) ≠ [] :=
  write_block_nonempty (optsW false 1) [vA] [vA] (by decide)

end Fjall
